import Mathlib

/-!
# Rule constructors of the grammar compiler (`src/compiler/rules/rules.cpp`)

A shallow embedding of the smart constructors `blank`, `character`, `char_class`,
`choice`, `pattern`, `repeat`, `seq`, `str` and `sym`, followed by theorems about the
trees they build.

A `rule_ptr` is a `std::shared_ptr<Rule>`: it is either empty (`null`) or points to a
node. In the tree view (`Rule`, `rule_ptr`) two pointers are equal when the trees they
point to are structurally equal. Node identity, i.e. which allocation a pointer refers
to, is represented in the heap view (`Node`, `rule_ref`, `Heap`), where `make_shared`
allocates at a fresh address; `tree_at` reads a tree back from the heap.
-/

namespace tree_sitter
namespace rules

/-- The `std::string` of the source. -/
abbrev string := String

/-- The `char` of the source: one byte. -/
abbrev char := UInt8

/-- Modelled from the spec: the enumeration `CharClassType` is declared in `rules.h`,
which is not part of the sources; §3 describes it as "a character-class identifier
(enumerated category, e.g. digit/whitespace/word)". An enumerator is represented by
its ordinal. -/
abbrev CharClassType := Nat

mutual
/-- Modelled from the spec: the node classes are declared in `rules.h`, which is not
part of the sources. The variants and their payloads follow the table of §3 and the
arguments `rules.cpp` passes to `make_shared`; the children of `Choice`, `Seq` and
`Repeat` are the `rule_ptr` values handed to the node constructors, so a child may be
an empty pointer. -/
inductive Rule where
  | Blank : Rule
  | Char (value : char) : Rule
  | CharClass (type : CharClassType) : Rule
  | Choice (left right : rule_ptr) : Rule
  | Pattern (value : string) : Rule
  | Repeat (content : rule_ptr) : Rule
  | Seq (left right : rule_ptr) : Rule
  | String (value : string) : Rule
  | Symbol (name : string) : Rule
/-- A shared pointer to a rule: empty, or pointing to a node. -/
inductive rule_ptr where
  | null : rule_ptr
  | ptr (node : Rule) : rule_ptr
end

deriving instance DecidableEq for Rule, rule_ptr

/-- The dynamic types `typeid` can report for a node. -/
inductive type_info where
  | Blank | Char | CharClass | Choice | Pattern | Repeat | Seq | String | Symbol
  deriving DecidableEq, Repr

/-- What can go wrong while a constructor runs. -/
inductive Fault where
  /-- `*p` was evaluated for an empty `shared_ptr` `p`. -/
  | null_dereference
  deriving DecidableEq, Repr

deriving instance DecidableEq for Except

/-- The value of `typeid(r)` for a node `r`: its dynamic type. -/
def typeid : Rule → type_info
  | .Blank => .Blank
  | .Char _ => .Char
  | .CharClass _ => .CharClass
  | .Choice _ _ => .Choice
  | .Pattern _ => .Pattern
  | .Repeat _ => .Repeat
  | .Seq _ _ => .Seq
  | .String _ => .String
  | .Symbol _ => .Symbol

/-- The expression `typeid(*p)`: dereferencing an empty pointer violates the
precondition of `shared_ptr::operator*` and yields no value. -/
def typeid_deref : rule_ptr → Except Fault type_info
  | .null => .error .null_dereference
  | .ptr r => .ok (typeid r)

/-- `p.get()` used as a condition: true exactly when the pointer is not empty. -/
def rule_ptr.get : rule_ptr → Bool
  | .null => false
  | .ptr _ => true

/-- Source lines 9-11. -/
def blank : rule_ptr := .ptr .Blank

/-- Source lines 13-15. -/
def character (value : char) : rule_ptr := .ptr (.Char value)

/-- Source lines 17-19. -/
def char_class (type : CharClassType) : rule_ptr := .ptr (.CharClass type)

/-- One iteration of the loop of `choice` (source line 24). -/
def choice_step (result rule : rule_ptr) : rule_ptr :=
  if result.get then .ptr (.Choice result rule) else rule

/-- The `for` loop of `choice` over the remaining elements. -/
def choice_loop : rule_ptr → List rule_ptr → rule_ptr
  | result, [] => result
  | result, rule :: rest => choice_loop (choice_step result rule) rest

/-- Source lines 21-26: `result` starts as an empty pointer. -/
def choice (rules : List rule_ptr) : rule_ptr :=
  choice_loop .null rules

/-- Source lines 28-30. -/
def pattern (value : string) : rule_ptr := .ptr (.Pattern value)

/-- Source lines 32-34. -/
def «repeat» (content : rule_ptr) : rule_ptr := .ptr (.Repeat content)

/-- One iteration of the loop of `seq` (source lines 39-41): the dynamic type of the
accumulated result is inspected first. -/
def seq_step (result rule : rule_ptr) : Except Fault rule_ptr :=
  match typeid_deref result with
  | .error e => .error e
  | .ok t => if t ≠ type_info.Blank then .ok (.ptr (.Seq result rule)) else .ok rule

/-- The `for` loop of `seq` over the remaining elements. -/
def seq_loop : rule_ptr → List rule_ptr → Except Fault rule_ptr
  | result, [] => .ok result
  | result, rule :: rest =>
    match seq_step result rule with
    | .error e => .error e
    | .ok result' => seq_loop result' rest

/-- Source lines 36-43: `result` starts as `blank()`. -/
def seq (rules : List rule_ptr) : Except Fault rule_ptr :=
  seq_loop blank rules

/-- Source lines 45-47. -/
def str (value : string) : rule_ptr := .ptr (.String value)

/-- Source lines 49-51. -/
def sym (name : string) : rule_ptr := .ptr (.Symbol name)

/-- The closed form of `seq` on present rules, following the words of the
specification rather than the loop: drop the longest prefix of Blank nodes; if nothing
is left the result is a Blank node, otherwise it is the left fold of the `Seq` node
over the remaining elements, starting from the first of them. -/
def seq_closed_form (rs : List Rule) : Rule :=
  match rs.dropWhile (fun r => decide (r = Rule.Blank)) with
  | [] => Rule.Blank
  | x :: xs => xs.foldl (fun l r => Rule.Seq (.ptr l) (.ptr r)) x

/-- Reading the alternatives back from a chain of `Choice` nodes: descend the left
spine `n` times, then list the innermost left child followed by the right children
from the innermost node outwards. There is no result when a node met on the way down
is not a `Choice` node. -/
def choice_alternatives : Nat → rule_ptr → Option (List rule_ptr)
  | 0, p => some [p]
  | n + 1, .ptr (.Choice left right) =>
    (choice_alternatives n left).map (fun alts => alts ++ [right])
  | _ + 1, _ => none

/-- The loop of `seq` with a log: the accumulated results whose dynamic type is
inspected by `typeid(*result)`, one per iteration that is reached, in order. -/
def seq_inspected : rule_ptr → List rule_ptr → List rule_ptr
  | _, [] => []
  | result, rule :: rest =>
    result :: (match seq_step result rule with
      | .error _ => []
      | .ok result' => seq_inspected result' rest)

/-- The address of an allocated node: its position in allocation order. -/
abbrev Address := Nat

/-- A `rule_ptr` as a machine value: empty, or the address of the node it points to.
Two references are identical exactly when they are equal here. -/
abbrev rule_ref := Option Address

/-- Modelled from the spec: the node classes are declared in `rules.h`, which is not
part of the sources. A node as it lies in memory: the same variants as `Rule`, with
the children of `Choice`, `Seq` and `Repeat` held as references. By §4.1 the node
constructor of `Repeat` keeps the reference it is given ("a Repeat node whose child is
exactly the given `content` reference (shared, not copied)"). -/
inductive Node where
  | Blank : Node
  | Char (value : char) : Node
  | CharClass (type : CharClassType) : Node
  | Choice (left right : rule_ref) : Node
  | Pattern (value : string) : Node
  | Repeat (content : rule_ref) : Node
  | Seq (left right : rule_ref) : Node
  | String (value : string) : Node
  | Symbol (name : string) : Node
  deriving DecidableEq, Repr

/-- The allocated nodes, in allocation order; the node at address `a` is `heap[a]?`. -/
abbrev Heap := List Node

/-- The node a reference points to, if any. -/
def deref (heap : Heap) : rule_ref → Option Node
  | none => none
  | some a => heap[a]?

/-- The call `std::make_shared<T>(args)`: the new node is placed at the next free
address, the nodes already allocated stay as they are, and a reference to the new node
is returned. -/
def make_shared (node : Node) (heap : Heap) : Heap × rule_ref :=
  (heap ++ [node], some heap.length)

/-- Source lines 32-34 with the allocation made explicit: one `make_shared<Repeat>`
whose argument is `content` as received. -/
def repeat_alloc (content : rule_ref) (heap : Heap) : Heap × rule_ref :=
  make_shared (.Repeat content) heap

/-- The tree of a node, given the trees of the references it holds. -/
def node_tree (sub : rule_ref → Option rule_ptr) : Node → Option rule_ptr
  | .Blank => some (.ptr .Blank)
  | .Char v => some (.ptr (.Char v))
  | .CharClass k => some (.ptr (.CharClass k))
  | .Choice l r =>
    match sub l, sub r with
    | some l', some r' => some (.ptr (.Choice l' r'))
    | _, _ => none
  | .Pattern t => some (.ptr (.Pattern t))
  | .Repeat c =>
    match sub c with
    | some c' => some (.ptr (.Repeat c'))
    | none => none
  | .Seq l r =>
    match sub l, sub r with
    | some l' , some r' => some (.ptr (.Seq l' r'))
    | _, _ => none
  | .String t => some (.ptr (.String t))
  | .Symbol t => some (.ptr (.Symbol t))

/-- The tree a reference stands for in a heap, read to depth `fuel`: the link between
the heap view and the tree view. There is no result for a dangling reference or when
the tree is deeper than `fuel`. -/
def tree_at (heap : Heap) : Nat → rule_ref → Option rule_ptr
  | _, none => some .null
  | 0, some _ => none
  | fuel + 1, some a =>
    match heap[a]? with
    | none => none
    | some node => node_tree (tree_at heap fuel) node

/-! ## Auxiliary facts about the two loops -/

theorem typeid_eq_Blank_iff (r : Rule) : typeid r = type_info.Blank ↔ r = Rule.Blank := by
  cases r <;> simp [typeid]

theorem choice_loop_present (acc : Rule) (rest : List Rule) :
    choice_loop (.ptr acc) (rest.map rule_ptr.ptr) =
      .ptr (rest.foldl (fun l r => Rule.Choice (.ptr l) (.ptr r)) acc) := by
  induction rest generalizing acc with
  | nil => rfl
  | cons r rest ih =>
    simp only [List.map_cons, List.foldl_cons, choice_loop, choice_step, rule_ptr.get]
    exact ih _

theorem seq_step_Blank (rule : rule_ptr) : seq_step blank rule = .ok rule := rfl

theorem seq_step_null (rule : rule_ptr) :
    seq_step .null rule = .error Fault.null_dereference := rfl

theorem seq_step_of_ne_Blank (r : Rule) (h : r ≠ Rule.Blank) (rule : rule_ptr) :
    seq_step (.ptr r) rule = .ok (.ptr (.Seq (.ptr r) rule)) := by
  have ht : typeid r ≠ type_info.Blank := fun e => h ((typeid_eq_Blank_iff r).1 e)
  simp [seq_step, typeid_deref, ht]

theorem seq_loop_Blank_cons (rule : rule_ptr) (rest : List rule_ptr) :
    seq_loop blank (rule :: rest) = seq_loop rule rest := rfl

theorem seq_loop_null_cons (rule : rule_ptr) (rest : List rule_ptr) :
    seq_loop .null (rule :: rest) = .error Fault.null_dereference := rfl

theorem seq_loop_of_ne_Blank (r : Rule) (h : r ≠ Rule.Blank) (rest : List rule_ptr) :
    seq_loop (.ptr r) rest =
      .ok (.ptr (rest.foldl (fun l x => Rule.Seq (.ptr l) x) r)) := by
  induction rest generalizing r with
  | nil => rfl
  | cons x rest ih =>
    simp only [seq_loop, seq_step_of_ne_Blank r h, List.foldl_cons]
    exact ih _ (by simp)

theorem seq_loop_present (acc : Rule) (rs : List Rule) :
    ∃ v : Rule, seq_loop (.ptr acc) (rs.map rule_ptr.ptr) = .ok (.ptr v) := by
  induction rs generalizing acc with
  | nil => exact ⟨acc, rfl⟩
  | cons r rs ih =>
    by_cases h : acc = Rule.Blank
    · subst h
      exact ih r
    · exact ⟨_, seq_loop_of_ne_Blank acc h _⟩

/-- The shape of the lists on which `seq` dereferences an empty pointer: some Blank
nodes, then an empty pointer, then at least one more element. -/
theorem seq_loop_Blank_returns_iff (rs : List rule_ptr) :
    (∃ v, seq_loop blank rs = .ok v) ↔
      ¬ ∃ (k : Nat) (x : rule_ptr) (rest : List rule_ptr),
        rs = List.replicate k blank ++ rule_ptr.null :: x :: rest := by
  induction rs with
  | nil =>
    refine ⟨fun _ => ?_, fun _ => ⟨blank, rfl⟩⟩
    rintro ⟨k, x, rest, h⟩
    simp at h
  | cons p rs ih =>
    rw [seq_loop_Blank_cons]
    cases p with
    | null =>
      cases rs with
      | nil =>
        refine ⟨fun _ => ?_, fun _ => ⟨.null, rfl⟩⟩
        rintro ⟨k, x, rest, h⟩
        have hl := congrArg List.length h
        simp at hl
        omega
      | cons x rest =>
        rw [seq_loop_null_cons]
        exact ⟨fun ⟨v, hv⟩ => (by cases hv), fun hn => absurd ⟨0, x, rest, rfl⟩ hn⟩
    | ptr r =>
      by_cases hr : r = Rule.Blank
      · subst hr
        show (∃ v, seq_loop blank rs = .ok v) ↔ _
        rw [ih]
        constructor
        · rintro hn ⟨k, x, rest, h⟩
          cases k with
          | zero => cases h
          | succ k =>
            rw [List.replicate_succ, List.cons_append] at h
            exact hn ⟨k, x, rest, (List.cons.inj h).2⟩
        · rintro hn ⟨k, x, rest, h⟩
          exact hn ⟨k + 1, x, rest, by rw [h]; rfl⟩
      · refine ⟨fun _ => ?_, fun _ => ⟨_, seq_loop_of_ne_Blank r hr rs⟩⟩
        rintro ⟨k, x, rest, h⟩
        cases k with
        | zero => cases h
        | succ k =>
          rw [List.replicate_succ, List.cons_append] at h
          have h1 := (List.cons.inj h).1
          exact hr (rule_ptr.ptr.inj h1)

theorem seq_loop_closed_form (rs : List Rule) :
    seq_loop blank (rs.map rule_ptr.ptr) = .ok (.ptr (seq_closed_form rs)) := by
  induction rs with
  | nil => rfl
  | cons r rs ih =>
    rw [List.map_cons, seq_loop_Blank_cons]
    by_cases h : r = Rule.Blank
    · subst h
      have hd : seq_closed_form (Rule.Blank :: rs) = seq_closed_form rs := by
        simp [seq_closed_form]
      rw [hd]
      exact ih
    · have hd : seq_closed_form (r :: rs) =
          rs.foldl (fun l x => Rule.Seq (.ptr l) (.ptr x)) r := by
        simp [seq_closed_form, h]
      rw [hd, seq_loop_of_ne_Blank r h, List.foldl_map]

theorem seq_loop_append (acc : rule_ptr) (xs ys : List rule_ptr) :
    seq_loop acc (xs ++ ys) = (seq_loop acc xs).bind (fun r => seq_loop r ys) := by
  induction xs generalizing acc with
  | nil => rfl
  | cons x xs ih =>
    simp only [List.cons_append, seq_loop]
    cases seq_step acc x with
    | error e => rfl
    | ok r => exact ih r

theorem seq_fold_ne_Blank (r : Rule) (h : r ≠ Rule.Blank) (xs : List rule_ptr) :
    xs.foldl (fun l x => Rule.Seq (.ptr l) x) r ≠ Rule.Blank := by
  induction xs generalizing r with
  | nil => exact h
  | cons x xs ih => exact ih _ (by simp)

theorem seq_step_present (acc : Rule) (rule : rule_ptr) :
    seq_step (.ptr acc) rule =
      .ok (if acc = Rule.Blank then rule else .ptr (.Seq (.ptr acc) rule)) := by
  by_cases h : acc = Rule.Blank
  · subst h
    rfl
  · rw [seq_step_of_ne_Blank acc h, if_neg h]

theorem choice_alternatives_fold (r1 : Rule) (rest : List Rule) :
    choice_alternatives rest.length
        (.ptr (rest.foldl (fun l r => Rule.Choice (.ptr l) (.ptr r)) r1)) =
      some (.ptr r1 :: rest.map rule_ptr.ptr) := by
  induction rest using List.reverseRecOn with
  | nil => rfl
  | append_singleton rest x ih =>
    rw [List.foldl_append, List.length_append]
    simp only [List.foldl_cons, List.foldl_nil, List.length_singleton, choice_alternatives]
    rw [ih]
    simp

theorem choice_cons_present (r1 : Rule) (rest : List Rule) :
    choice (.ptr r1 :: rest.map rule_ptr.ptr) =
      .ptr (rest.foldl (fun l r => Rule.Choice (.ptr l) (.ptr r)) r1) :=
  choice_loop_present r1 rest

theorem seq_inspected_present (acc : Rule) (rs : List Rule) :
    (∀ p ∈ seq_inspected (.ptr acc) (rs.map rule_ptr.ptr), p ≠ rule_ptr.null) ∧
    (seq_inspected (.ptr acc) (rs.map rule_ptr.ptr)).length = rs.length := by
  induction rs generalizing acc with
  | nil => exact ⟨fun p hp => (by cases hp), rfl⟩
  | cons r rs ih =>
    simp only [List.map_cons, seq_inspected, seq_step_present]
    by_cases h : acc = Rule.Blank
    · rw [if_pos h]
      obtain ⟨h1, h2⟩ := ih r
      refine ⟨fun p hp => ?_, by simp [h2]⟩
      rcases List.mem_cons.1 hp with hp | hp
      · rw [hp]
        exact fun e => by cases e
      · exact h1 p hp
    · rw [if_neg h]
      obtain ⟨h1, h2⟩ := ih (.Seq (.ptr acc) (.ptr r))
      refine ⟨fun p hp => ?_, by simp [h2]⟩
      rcases List.mem_cons.1 hp with hp | hp
      · rw [hp]
        exact fun e => by cases e
      · exact h1 p hp

/-- The log is faithful to the loop: `seq` fails exactly when an empty pointer is among
the accumulated results it inspects. -/
theorem seq_loop_faults_iff (acc : rule_ptr) (rs : List rule_ptr) :
    seq_loop acc rs = .error Fault.null_dereference ↔
      rule_ptr.null ∈ seq_inspected acc rs := by
  induction rs generalizing acc with
  | nil => exact ⟨fun h => (by cases h), fun h => (by cases h)⟩
  | cons x rs ih =>
    cases acc with
    | null => exact ⟨fun _ => List.mem_cons_self _ _, fun _ => rfl⟩
    | ptr a =>
      simp only [seq_loop, seq_inspected, seq_step_present]
      rw [ih]
      simp

theorem node_tree_mono (sub sub' : rule_ref → Option rule_ptr)
    (h : ∀ p t, sub p = some t → sub' p = some t) (node : Node) (t : rule_ptr)
    (ht : node_tree sub node = some t) : node_tree sub' node = some t := by
  cases node with
  | Choice l r =>
    simp only [node_tree] at ht ⊢
    cases hl : sub l with
    | none => simp [hl] at ht
    | some l' =>
      cases hr : sub r with
      | none => simp [hl, hr] at ht
      | some r' =>
        rw [h l l' hl, h r r' hr]
        simpa [hl, hr] using ht
  | Seq l r =>
    simp only [node_tree] at ht ⊢
    cases hl : sub l with
    | none => simp [hl] at ht
    | some l' =>
      cases hr : sub r with
      | none => simp [hl, hr] at ht
      | some r' =>
        rw [h l l' hl, h r r' hr]
        simpa [hl, hr] using ht
  | Repeat c =>
    simp only [node_tree] at ht ⊢
    cases hc : sub c with
    | none => simp [hc] at ht
    | some c' =>
      rw [h c c' hc]
      simpa [hc] using ht
  | Blank => exact ht
  | Char v => exact ht
  | CharClass k => exact ht
  | Pattern v => exact ht
  | String v => exact ht
  | Symbol v => exact ht

/-- Allocating further nodes does not change the tree an existing reference stands
for. -/
theorem tree_at_append (heap more : Heap) (fuel : Nat) (p : rule_ref) (t : rule_ptr)
    (ht : tree_at heap fuel p = some t) : tree_at (heap ++ more) fuel p = some t := by
  induction fuel generalizing p t with
  | zero =>
    cases p with
    | none => exact ht
    | some a => simp [tree_at] at ht
  | succ fuel ih =>
    cases p with
    | none => exact ht
    | some a =>
      simp only [tree_at] at ht ⊢
      cases ha : heap[a]? with
      | none => simp [ha] at ht
      | some node =>
        have hlt : a < heap.length := (List.getElem?_eq_some_iff.1 ha).1
        rw [List.getElem?_append_left hlt, ha]
        rw [ha] at ht
        exact node_tree_mono _ _ ih node t ht

/-! ## The claims -/

/-- C1: for present rules `r1, r2, ..., rn` with `n ≥ 2`, `choice` returns the
left fold of the `Choice` node constructor over `r2..rn` starting from `r1`; in
particular `choice([a, b, c]) = Choice(Choice(a, b), c)`. -/
theorem choice_left_associated :
    (∀ (r1 r2 : Rule) (rest : List Rule),
      choice (.ptr r1 :: .ptr r2 :: rest.map rule_ptr.ptr) =
        .ptr ((r2 :: rest).foldl (fun l r => Rule.Choice (.ptr l) (.ptr r)) r1)) ∧
    (∀ a b c : Rule,
      choice [.ptr a, .ptr b, .ptr c] =
        .ptr (.Choice (.ptr (.Choice (.ptr a) (.ptr b))) (.ptr c))) := by
  refine ⟨fun r1 r2 rest => ?_, fun a b c => rfl⟩
  exact choice_loop_present r1 (r2 :: rest)

/-- C2 fails when the first rule is a Blank node: `seq([blank(), sym("b"), sym("c")])`
is `Seq(sym("b"), sym("c"))`, not `Seq(Seq(blank(), sym("b")), sym("c"))`. -/
theorem seq_three_leading_Blank :
    seq [blank, sym "b", sym "c"] = .ok (.ptr (.Seq (sym "b") (sym "c"))) ∧
    seq [blank, sym "b", sym "c"] ≠
      .ok (.ptr (.Seq (.ptr (.Seq blank (sym "b"))) (sym "c"))) := by
  decide

/-- C2, amended: for every three rules `a`, `b`, `c` where `a` is not a Blank node,
`seq([a, b, c])` equals `Seq(Seq(a, b), c)`. -/
theorem seq_three (a b c : Rule) (h : a ≠ Rule.Blank) :
    seq [.ptr a, .ptr b, .ptr c] =
      .ok (.ptr (.Seq (.ptr (.Seq (.ptr a) (.ptr b))) (.ptr c))) := by
  show seq_loop blank [.ptr a, .ptr b, .ptr c] = _
  rw [seq_loop_Blank_cons, seq_loop_of_ne_Blank a h]
  rfl

/-- An instance of `seq_three` with a Blank in second position. -/
theorem seq_three_witness :
    Rule.Symbol "a" ≠ Rule.Blank ∧
    seq [sym "a", blank, str "c"] = .ok (.ptr (.Seq (.ptr (.Seq (sym "a") blank)) (str "c"))) :=
  ⟨by decide, seq_three (.Symbol "a") .Blank (.String "c") (by decide)⟩

/-- C3 fails when `r` is itself a Blank node: `seq([blank(), blank()])` is a Blank
node, not `Seq(blank(), blank())`. -/
theorem seq_Blank_Blank :
    seq [blank, blank] = .ok blank ∧ seq [blank, blank] ≠ .ok (.ptr (.Seq blank blank)) := by
  decide

/-- C3, amended: for every rule `r` that is not a Blank node, `seq([r, blank()])`
equals `Seq(r, blank())`: the trailing Blank is retained as the right child. -/
theorem seq_trailing_Blank (r : Rule) (h : r ≠ Rule.Blank) :
    seq [.ptr r, blank] = .ok (.ptr (.Seq (.ptr r) blank)) := by
  show seq_loop blank [.ptr r, blank] = _
  rw [seq_loop_Blank_cons, seq_loop_of_ne_Blank r h]
  rfl

/-- An instance of `seq_trailing_Blank` at the character `x`. -/
theorem seq_trailing_Blank_witness :
    Rule.Char 120 ≠ Rule.Blank ∧
    seq [character 120, blank] = .ok (.ptr (.Seq (character 120) blank)) :=
  ⟨by decide, seq_trailing_Blank (.Char 120) (by decide)⟩

/-- C4: a leading Blank leaves no residue: `seq(blank() :: rs)` equals `seq(rs)` for
every list of references `rs` (both return the same tree, or both fail), and
`seq([blank(), r])` is `r` itself. -/
theorem seq_leading_Blank :
    (∀ rs : List rule_ptr, seq (blank :: rs) = seq rs) ∧
    (∀ r : rule_ptr, seq [blank, r] = .ok r) :=
  ⟨fun _ => rfl, fun _ => rfl⟩

/-- C5 fails for `seq`: once the empty pointer that `choice([])` returns has become the
accumulated result, the next iteration dereferences it, so `seq([choice([]), blank()])`
returns nothing. -/
theorem seq_null_then_more :
    seq [choice [], blank] = .error Fault.null_dereference ∧
    ¬ ∃ v, seq [choice [], blank] = .ok v := by
  refine ⟨rfl, ?_⟩
  rintro ⟨v, hv⟩
  cases hv

/-- C5, amended: `seq` returns a result for every list of present rule references,
and for a list that may hold empty pointers it returns a result exactly when the list
is not of the form: Blank nodes, an empty pointer, at least one more element. (The
other constructors dereference nothing and are total functions here.) -/
theorem seq_returns :
    (∀ rs : List Rule, ∃ v, seq (rs.map rule_ptr.ptr) = .ok v) ∧
    (∀ rs : List rule_ptr,
      (∃ v, seq rs = .ok v) ↔
        ¬ ∃ (k : Nat) (x : rule_ptr) (rest : List rule_ptr),
          rs = List.replicate k blank ++ rule_ptr.null :: x :: rest) := by
  refine ⟨fun rs => ?_, fun rs => seq_loop_Blank_returns_iff rs⟩
  obtain ⟨v, hv⟩ := seq_loop_present .Blank rs
  exact ⟨.ptr v, hv⟩

/-- C6: `choice` of the empty list is the empty pointer: no node at all, neither a
Blank nor a Choice. -/
theorem choice_nil :
    choice [] = rule_ptr.null ∧ (choice []).get = false ∧ ∀ r : Rule, choice [] ≠ .ptr r := by
  refine ⟨rfl, rfl, fun r h => ?_⟩
  cases h

/-- C7: `seq` of the empty list is a Blank node, structurally equal to `blank()`. -/
theorem seq_nil : seq [] = .ok blank ∧ seq [] = .ok (.ptr Rule.Blank) :=
  ⟨rfl, rfl⟩

/-- C8: `seq([r])` is `r` itself for every reference `r`: no Seq wrapper is introduced,
also when `r` is a Blank node or a Seq node. -/
theorem seq_singleton (r : rule_ptr) : seq [r] = .ok r := rfl

/-- C9: `choice([r])` is `r` itself for every reference `r`: no Choice wrapper is
introduced. -/
theorem choice_singleton (r : rule_ptr) : choice [r] = r := rfl

/-- C10: `repeat(r)` is a Repeat node whose content child is exactly `r`, the given
reference itself, neither copied nor normalized, and `repeat` is injective.
Heap view: the one node `repeat` allocates is a Repeat node whose content field is the
reference received (the same address); its address is fresh, exactly one node is
allocated and every node allocated before is unchanged, so the content is not copied;
two calls on the same content give two distinct Repeat nodes holding that one
reference; the nodes built for two contents are equal only if the contents are the same
reference. Tree view: the tree of the new node is `repeat` of the tree of the content,
`repeat r` is `Repeat r`, and `repeat` is injective on trees. -/
theorem repeat_shares_content :
    (∀ (content : rule_ref) (heap : Heap),
      deref (repeat_alloc content heap).1 (repeat_alloc content heap).2 =
        some (Node.Repeat content) ∧
      deref heap (repeat_alloc content heap).2 = none ∧
      (repeat_alloc content heap).1.length = heap.length + 1 ∧
      (∀ a, a < heap.length →
        deref (repeat_alloc content heap).1 (some a) = deref heap (some a))) ∧
    (∀ (c1 c2 : rule_ref) (h1 h2 : Heap),
      deref (repeat_alloc c1 h1).1 (repeat_alloc c1 h1).2 =
        deref (repeat_alloc c2 h2).1 (repeat_alloc c2 h2).2 → c1 = c2) ∧
    (∀ (content : rule_ref) (heap : Heap),
      (repeat_alloc content heap).2 ≠
        (repeat_alloc content (repeat_alloc content heap).1).2 ∧
      deref (repeat_alloc content (repeat_alloc content heap).1).1
        (repeat_alloc content heap).2 = some (Node.Repeat content) ∧
      deref (repeat_alloc content (repeat_alloc content heap).1).1
        (repeat_alloc content (repeat_alloc content heap).1).2 =
          some (Node.Repeat content)) ∧
    (∀ (content : rule_ref) (heap : Heap) (fuel : Nat) (t : rule_ptr),
      tree_at heap fuel content = some t →
      tree_at (repeat_alloc content heap).1 (fuel + 1) (repeat_alloc content heap).2 =
        some («repeat» t)) ∧
    (∀ r : rule_ptr, «repeat» r = .ptr (.Repeat r)) ∧
    (∀ r1 r2 : rule_ptr, «repeat» r1 = «repeat» r2 → r1 = r2) := by
  have hnew : ∀ (content : rule_ref) (heap : Heap),
      deref (repeat_alloc content heap).1 (repeat_alloc content heap).2 =
        some (Node.Repeat content) := fun content heap =>
    List.getElem?_concat_length heap (Node.Repeat content)
  refine ⟨fun content heap => ⟨hnew content heap, ?_, ?_, fun a ha => ?_⟩,
    fun c1 c2 h1 h2 h => ?_, fun content heap => ⟨?_, ?_, hnew _ _⟩,
    fun content heap fuel t ht => ?_, fun _ => rfl, fun r1 r2 h => ?_⟩
  · exact List.getElem?_eq_none (Nat.le_refl _)
  · simp [repeat_alloc, make_shared]
  · exact List.getElem?_append_left ha
  · rw [hnew, hnew] at h
    exact Node.Repeat.inj (Option.some.inj h)
  · simp [repeat_alloc, make_shared]
  · show ((heap ++ [Node.Repeat content]) ++ [Node.Repeat content])[heap.length]? = _
    rw [List.getElem?_append_left (by simp), List.getElem?_concat_length]
  · have hext := tree_at_append heap [Node.Repeat content] fuel content t ht
    show tree_at (heap ++ [Node.Repeat content]) (fuel + 1) (some heap.length) = _
    simp only [tree_at, List.getElem?_concat_length, node_tree, hext]
    rfl
  · simpa [«repeat»] using h

/-- An instance of `repeat_shares_content`: with `sym("expr")` allocated at address 0,
`repeat` of that reference allocates a Repeat node holding address 0, whose tree is
`repeat(sym("expr"))`. -/
theorem repeat_shares_content_witness :
    deref (repeat_alloc (some 0) [Node.Symbol "expr"]).1
        (repeat_alloc (some 0) [Node.Symbol "expr"]).2 = some (Node.Repeat (some 0)) ∧
    (repeat_alloc (some 0) [Node.Symbol "expr"]).1.length = 2 ∧
    tree_at (repeat_alloc (some 0) [Node.Symbol "expr"]).1 2
        (repeat_alloc (some 0) [Node.Symbol "expr"]).2 = some («repeat» (sym "expr")) :=
  ⟨(repeat_shares_content.1 (some 0) [Node.Symbol "expr"]).1,
    (repeat_shares_content.1 (some 0) [Node.Symbol "expr"]).2.2.1,
    repeat_shares_content.2.2.2.1 (some 0) [Node.Symbol "expr"] 1 (sym "expr") (by decide)⟩

/-- C11: each leaf constructor returns a node of its own variant carrying exactly the
given payload, is injective in that payload, and the results of two different leaf
constructors are never equal, whatever the payloads. -/
theorem leaf_constructors :
    ((∀ v, character v = .ptr (.Char v)) ∧ (∀ t, str t = .ptr (.String t)) ∧
      (∀ t, pattern t = .ptr (.Pattern t)) ∧ (∀ t, sym t = .ptr (.Symbol t)) ∧
      (∀ k, char_class k = .ptr (.CharClass k))) ∧
    ((∀ v w, character v = character w → v = w) ∧ (∀ t u, str t = str u → t = u) ∧
      (∀ t u, pattern t = pattern u → t = u) ∧ (∀ t u, sym t = sym u → t = u) ∧
      (∀ k l, char_class k = char_class l → k = l)) ∧
    ((∀ v t, character v ≠ str t) ∧ (∀ v t, character v ≠ pattern t) ∧
      (∀ v t, character v ≠ sym t) ∧ (∀ v k, character v ≠ char_class k) ∧
      (∀ t u, str t ≠ pattern u) ∧ (∀ t u, str t ≠ sym u) ∧
      (∀ t k, str t ≠ char_class k) ∧ (∀ t u, pattern t ≠ sym u) ∧
      (∀ t k, pattern t ≠ char_class k) ∧ (∀ t k, sym t ≠ char_class k)) := by
  refine ⟨⟨fun _ => rfl, fun _ => rfl, fun _ => rfl, fun _ => rfl, fun _ => rfl⟩,
    ⟨?_, ?_, ?_, ?_, ?_⟩, ⟨?_, ?_, ?_, ?_, ?_, ?_, ?_, ?_, ?_, ?_⟩⟩ <;>
  · intro a b
    simp [character, str, pattern, sym, char_class]

/-- C12: `str("")` is a String node, different from `blank()`, and `seq` does not
eliminate it as a leading element: `seq([str(""), r]) = Seq(str(""), r)`. -/
theorem str_empty_not_Blank :
    str "" = .ptr (.String "") ∧ str "" ≠ blank ∧
    ∀ r : rule_ptr, seq [str "", r] = .ok (.ptr (.Seq (str "") r)) :=
  ⟨rfl, by decide, fun _ => rfl⟩

/-- C13: closed form of `seq` on present rules. With `rs'` the list `rs` without its
longest prefix of Blank nodes, `seq(rs)` is a Blank node when `rs'` is empty, and
otherwise `rs' = x :: xs` with `x` not Blank and `seq(rs)` is the left fold of the
`Seq` node over `xs` starting from `x`. -/
theorem seq_eq_closed_form (rs : List Rule) :
    seq (rs.map rule_ptr.ptr) = .ok (.ptr (seq_closed_form rs)) ∧
    (rs.dropWhile (fun r => decide (r = Rule.Blank)) = [] →
      seq (rs.map rule_ptr.ptr) = .ok blank) ∧
    (∀ x xs, rs.dropWhile (fun r => decide (r = Rule.Blank)) = x :: xs →
      x ≠ Rule.Blank ∧
      seq (rs.map rule_ptr.ptr) =
        .ok (.ptr (xs.foldl (fun l r => Rule.Seq (.ptr l) (.ptr r)) x))) := by
  have hc := seq_loop_closed_form rs
  refine ⟨hc, fun h => ?_, fun x xs h => ⟨?_, ?_⟩⟩
  · show seq_loop blank _ = _
    rw [hc]
    simp [seq_closed_form, h, blank]
  · have hw : rs.dropWhile (fun r => decide (r = Rule.Blank)) ≠ [] := by simp [h]
    have hn := List.head_dropWhile_not (fun r => decide (r = Rule.Blank)) rs hw
    simpa [h] using hn
  · show seq_loop blank _ = _
    rw [hc]
    simp [seq_closed_form, h]

/-- C14: accumulation step of `seq` on present rules. `seq(rs)` returns a rule `v`;
`seq(rs ++ [x])` is `x` when `v` is a Blank node and `Seq(v, x)` otherwise. Which case
applies depends on `v` only, never on `x`. -/
theorem seq_snoc (rs : List Rule) (x : Rule) :
    ∃ v : Rule, seq (rs.map rule_ptr.ptr) = .ok (.ptr v) ∧
      (v = Rule.Blank → seq ((rs ++ [x]).map rule_ptr.ptr) = .ok (.ptr x)) ∧
      (v ≠ Rule.Blank →
        seq ((rs ++ [x]).map rule_ptr.ptr) = .ok (.ptr (.Seq (.ptr v) (.ptr x)))) := by
  obtain ⟨v, hv⟩ := seq_loop_present .Blank rs
  have hs : seq ((rs ++ [x]).map rule_ptr.ptr) = seq_loop (.ptr v) [.ptr x] := by
    show seq_loop blank _ = _
    rw [List.map_append, seq_loop_append]
    show (seq_loop (.ptr .Blank) _).bind _ = _
    rw [hv]
    rfl
  refine ⟨v, hv, fun h => ?_, fun h => ?_⟩
  · rw [hs, h]
    rfl
  · rw [hs, seq_loop_of_ne_Blank v h]
    rfl

/-- C15: `choice` preserves the order of its alternatives. For a non-empty list
`r1 :: rest` of present rules (length `n`, so `n - 1 = rest.length`), descending the
left spine of the result `n - 1` times and reading the alternatives back yields the
list itself; hence `choice` is injective on lists of a fixed length. -/
theorem choice_preserves_order :
    (∀ (r1 : Rule) (rest : List Rule),
      choice_alternatives rest.length (choice (.ptr r1 :: rest.map rule_ptr.ptr)) =
        some (.ptr r1 :: rest.map rule_ptr.ptr)) ∧
    (∀ rs rs' : List Rule, rs.length = rs'.length →
      choice (rs.map rule_ptr.ptr) = choice (rs'.map rule_ptr.ptr) → rs = rs') := by
  have hread : ∀ (r1 : Rule) (rest : List Rule),
      choice_alternatives rest.length (choice (.ptr r1 :: rest.map rule_ptr.ptr)) =
        some (.ptr r1 :: rest.map rule_ptr.ptr) := fun r1 rest => by
    rw [choice_cons_present, choice_alternatives_fold]
  refine ⟨hread, fun rs rs' hl he => ?_⟩
  cases rs with
  | nil =>
    cases rs' with
    | nil => rfl
    | cons _ _ => simp at hl
  | cons r1 rest =>
    cases rs' with
    | nil => simp at hl
    | cons r1' rest' =>
      have hl' : rest.length = rest'.length := by simpa using hl
      have h1 := hread r1 rest
      have h2 := hread r1' rest'
      rw [List.map_cons] at he
      rw [he, hl', List.map_cons, h2] at h1
      have h3 : (r1' :: rest').map rule_ptr.ptr = (r1 :: rest).map rule_ptr.ptr := by
        simpa using h1
      have hinj : Function.Injective rule_ptr.ptr := fun a b h => rule_ptr.ptr.inj h
      exact (List.map_injective_iff.2 hinj h3).symm

/-- C16: on present rules, `seq(rs)` is a Blank node if and only if every element of
`rs` is a Blank node (the empty list included). -/
theorem seq_Blank_iff (rs : List Rule) :
    seq (rs.map rule_ptr.ptr) = .ok blank ↔ ∀ r ∈ rs, r = Rule.Blank := by
  induction rs with
  | nil => simp [seq, seq_loop]
  | cons r rs ih =>
    by_cases h : r = Rule.Blank
    · subst h
      have hs : seq ((Rule.Blank :: rs).map rule_ptr.ptr) = seq (rs.map rule_ptr.ptr) := rfl
      rw [hs, ih]
      simp
    · have hs : seq ((r :: rs).map rule_ptr.ptr) = seq_loop (.ptr r) (rs.map rule_ptr.ptr) :=
        rfl
      rw [hs, seq_loop_of_ne_Blank r h]
      constructor
      · intro he
        have hb : (rs.map rule_ptr.ptr).foldl (fun l x => Rule.Seq (.ptr l) x) r =
            Rule.Blank := rule_ptr.ptr.inj (Except.ok.inj he)
        exact absurd hb (seq_fold_ne_Blank r h _)
      · intro ha
        exact absurd (ha r (List.mem_cons_self _ _)) h

/-- C17: `seq` is compatible with concatenation through pre-folding a prefix. For all
lists of references, `seq(xs ++ ys)` is `seq(seq(xs) :: ys)` whenever `seq(xs)` returns
(and fails when `seq(xs)` fails); on present rules `seq(xs)` always returns a rule `v`
and `seq(xs ++ ys) = seq(v :: ys)`. -/
theorem seq_append :
    (∀ xs ys : List rule_ptr,
      seq (xs ++ ys) = (seq xs).bind (fun r => seq (r :: ys))) ∧
    (∀ xs ys : List Rule, ∃ v : Rule,
      seq (xs.map rule_ptr.ptr) = .ok (.ptr v) ∧
      seq ((xs ++ ys).map rule_ptr.ptr) = seq (.ptr v :: ys.map rule_ptr.ptr)) := by
  have hg : ∀ xs ys : List rule_ptr,
      seq (xs ++ ys) = (seq xs).bind (fun r => seq (r :: ys)) := fun xs ys =>
    seq_loop_append blank xs ys
  refine ⟨hg, fun xs ys => ?_⟩
  obtain ⟨v, hv⟩ := seq_loop_present .Blank xs
  have hv' : seq (xs.map rule_ptr.ptr) = .ok (.ptr v) := hv
  refine ⟨v, hv', ?_⟩
  rw [List.map_append, hg, hv']
  rfl

/-- C18: on present rules, `choice(rs)` is the empty pointer if and only if `rs` is
empty; for a non-empty list the result is a present rule. -/
theorem choice_null_iff (rs : List Rule) :
    (choice (rs.map rule_ptr.ptr) = rule_ptr.null ↔ rs = []) ∧
    (rs ≠ [] → ∃ r : Rule, choice (rs.map rule_ptr.ptr) = .ptr r) := by
  cases rs with
  | nil => exact ⟨⟨fun _ => rfl, fun _ => rfl⟩, fun h => absurd rfl h⟩
  | cons r1 rest =>
    rw [List.map_cons, choice_cons_present]
    exact ⟨⟨fun h => (by cases h), fun h => (by cases h)⟩, fun _ => ⟨_, rfl⟩⟩

/-- C19: on present rules, every accumulated result whose dynamic type `seq` inspects
is a present rule, all iterations are reached (one inspection per element), and `seq`
returns a present rule. -/
theorem seq_present (rs : List Rule) :
    (∀ p ∈ seq_inspected blank (rs.map rule_ptr.ptr), p ≠ rule_ptr.null) ∧
    (seq_inspected blank (rs.map rule_ptr.ptr)).length = rs.length ∧
    ∃ v : Rule, seq (rs.map rule_ptr.ptr) = .ok (.ptr v) :=
  ⟨(seq_inspected_present .Blank rs).1, (seq_inspected_present .Blank rs).2,
    seq_loop_present .Blank rs⟩

end rules
end tree_sitter
